import Mathlib

/-!
Verification of the process-state reconstruction core (`bpmn_handler.py` and
`state_computer.py`) against its natural-language specification.

The Python code is shallowly embedded: dictionaries become association lists
with Python-dict semantics (`dlookup` returns the value of the first binding,
`dinsert` overwrites in place, preserving insertion order, exactly like a
CPython dict), Python sets over flow ids become lists with membership-based
set operations, timestamps become natural numbers, nullable values become
`Option`, and the external collaborators (n-gram trace matcher, concurrency
oracle) become function parameters, reflecting their black-box contracts.
-/

/-- Association-list lookup with Python-dict semantics: the value of the
(unique) binding for the key, `none` when absent (`dict.get`). -/
def dlookup {κ α : Type} [BEq κ] (m : List (κ × α)) (k : κ) : Option α :=
  (m.find? (fun p => p.1 == k)).map (fun p => p.2)

/-- Association-list insertion with Python-dict semantics: an existing key is
updated in place (keeping its position), a new key is appended at the end. -/
def dinsert {κ α : Type} [BEq κ] : List (κ × α) → κ → α → List (κ × α)
  | [], k, v => [(k, v)]
  | (k', v') :: rest, k, v =>
    if k' == k then (k, v) :: rest else (k', v') :: dinsert rest k v

/-- Python `set.intersection`, on the list representation of a set:
the elements of `a` that also belong to `b`. -/
def sinter (a b : List String) : List String := a.filter (fun x => b.contains x)

/-- Maximum of a list of naturals, `none` on the empty list
(pandas `Series.max` over the non-null values). -/
def listMax : List Nat → Option Nat
  | [] => none
  | x :: xs =>
    match listMax xs with
    | none => some x
    | some m => some (max x m)

/-- Minimum of a list of naturals, `none` on the empty list. -/
def listMin : List Nat → Option Nat
  | [] => none
  | x :: xs =>
    match listMin xs with
    | none => some x
    | some m => some (min x m)

/-- Character comparison by code point. -/
def charLtB (a b : Char) : Bool := a.val < b.val

/-- Lexicographic comparison of character lists. -/
def charListLt : List Char → List Char → Bool
  | _, [] => false
  | [], _ :: _ => true
  | a :: as, b :: bs =>
    if charLtB a b then true else if charLtB b a then false else charListLt as bs

/-- String comparison (Python `<` on strings), used by `sorted`. -/
def strLtB (a b : String) : Bool := charListLt a.data b.data

/-- Insert a string into a sorted list of strings (helper of `sortStr`). -/
def insStr (x : String) : List String → List String
  | [] => [x]
  | y :: ys => if strLtB y x then y :: insStr x ys else x :: y :: ys

/-- Python `sorted` on a list of strings (insertion sort). -/
def sortStr : List String → List String
  | [] => []
  | x :: xs => insStr x (sortStr xs)

/-- `tuple(sorted(s))` on a Python set `s` of flow ids: the canonical marking
key used to address the reachability graph. -/
def canonKey (marking : List String) : List String := sortStr marking.dedup

/-- One row of the event log: case id, activity name, resource, start time,
end time (`none` = ongoing), enabled time (`none` = unknown). -/
structure Event where
  case : String
  activity : String
  resource : String
  start_time : Option Nat
  end_time : Option Nat
  enabled_time : Option Nat
deriving DecidableEq, Repr

/-- `sort_values` key order on start times: null start times sort last. -/
def startLtB (a b : Event) : Bool :=
  match a.start_time, b.start_time with
  | none, _ => false
  | some _, none => true
  | some x, some y => x < y

/-- Insert an event into a list sorted by start time (helper of `sortByStart`). -/
def insEv (e : Event) : List Event → List Event
  | [] => [e]
  | x :: xs => if startLtB x e then x :: insEv e xs else e :: x :: xs

/-- `group.sort_values(start_time)`: sort a case's events by start time. -/
def sortByStart : List Event → List Event
  | [] => []
  | e :: rest => insEv e (sortByStart rest)

/-- The parsed tables of `BPMNHandler`: `sequence_flows` (flow id → target),
`flow_sources` (flow id → source), `activities` (task id → name),
`task_name_to_id` (name → task id) and the `end_events` set. -/
structure BPMNModel where
  sequence_flows : List (String × String)
  flow_sources : List (String × String)
  activities : List (String × String)
  task_name_to_id : List (String × String)
  end_events : List String
deriving DecidableEq, Repr

/-- `BPMNHandler.is_end_event`: membership in the stored end-event set. -/
def is_end_event (m : BPMNModel) (element_id : String) : Bool :=
  m.end_events.contains element_id

/-- `self.flow_sources[sf_id]` — the source of a sequence flow (the parser
always stores a source for every stored flow, so the default is inert). -/
def flowSourceOf (m : BPMNModel) (sf_id : String) : String :=
  (dlookup m.flow_sources sf_id).getD ""

/-- The reachability graph, per its read contract: canonical marking key →
node id, node id → incoming edge ids, edge id → (source node, target node),
edge id → activity id, node id → marking. -/
structure ReachabilityGraph where
  marking_to_key : List (List String × Nat)
  incoming_edges : List (Nat × List Nat)
  edges : List (Nat × (Nat × Nat))
  edge_to_activity : List (Nat × String)
  markings : List (Nat × List String)
deriving DecidableEq, Repr

/-- `NGramIndex.TRACE_START`, the designated trace-start sentinel label. -/
def TRACE_START : String := "DEFAULT_TRACE_START_LABEL"

/-- The pure collaborators consumed as black boxes: the n-gram trace matcher
(`get_best_marking_state_for`) and the concurrency oracle's `enabled_since`
(here `trace → activity name → probe time → enabled time`). -/
structure Services where
  matcher : List String → List String
  enabled_since : List Event → String → Nat → Option Nat

/-- The concurrency oracle's lazily-extensible `concurrency` table:
activity name → tracked structure (inserted entries are empty). -/
def OracleTable : Type := List (String × List String)

instance : DecidableEq OracleTable := by
  unfold OracleTable
  exact inferInstance

/-- The mutable world threaded through `compute_case_states`: the model
tables, the reachability graph, the event log, and the oracle table. -/
structure World where
  model : BPMNModel
  graph : ReachabilityGraph
  log : List Event
  concurrency : OracleTable
deriving DecidableEq

/-- One record of `ongoing_activities`. -/
structure OngoingRecord where
  id : Option String
  start_time : Option Nat
  resource : String
  enabled_time : Option Nat
deriving DecidableEq, Repr

/-- One record of `enabled_activities`. -/
structure EnabledRec where
  id : String
  enabled_time : Option Nat
deriving DecidableEq, Repr

/-- One record of `enabled_gateways` (only appended with a defined time). -/
structure GatewayRec where
  id : String
  enabled_time : Nat
deriving DecidableEq, Repr

/-- `control_flow_state` of a case. -/
structure ControlFlowState where
  flows : List String
  activities : List (Option String)
deriving DecidableEq, Repr

/-- The per-case output record. -/
structure CaseState where
  control_flow_state : ControlFlowState
  ongoing_activities : List OngoingRecord
  enabled_activities : List EnabledRec
  enabled_gateways : List GatewayRec
deriving DecidableEq, Repr

/-- Lines 27–55 of `state_computer.py`: the ongoing-activity records of a
(sorted) case group. The activity name is resolved through
`task_name_to_id`; the enabled time is the log's `enabled_time` when the
start time is defined, the name resolves, and the name is tracked in the
oracle's concurrency table, else `none`. -/
def ongoingOf (m : BPMNModel) (tbl : OracleTable) (group : List Event) :
    List OngoingRecord :=
  (group.filter (fun e => e.end_time.isNone)).map (fun e =>
    let task_id := dlookup m.task_name_to_id e.activity
    let et : Option Nat :=
      match e.start_time, task_id with
      | none, _ => none
      | some _, none => none
      | some _, some _ =>
        if (dlookup tbl e.activity).isSome then e.enabled_time else none
    { id := task_id, start_time := e.start_time, resource := e.resource,
      enabled_time := et })

/-- Lines 57–59: the n-gram query sequence — the trace-start sentinel
followed by the case's activity names in (sorted) order. -/
def traceOf (group : List Event) : List String :=
  TRACE_START :: group.map (fun e => e.activity)

/-- Lines 64–81: the ongoing-activity correction. Locate the node whose key
is the canonical key of the matcher marking; for each ongoing activity id,
find the first incoming edge labeled with that id and intersect the working
flow set with the edge's source-node marking. -/
def intersectOngoing (g : ReachabilityGraph) (ids : List (Option String))
    (marking : List String) : List String :=
  match dlookup g.marking_to_key (canonKey marking) with
  | none => marking
  | some mid =>
    let inc := (dlookup g.incoming_edges mid).getD []
    ids.foldl (fun fl tid =>
      match inc.find? (fun eid => dlookup g.edge_to_activity eid == tid) with
      | none => fl
      | some eid =>
        let src := ((dlookup g.edges eid).getD (0, 0)).1
        sinter fl ((dlookup g.markings src).getD [])) marking

/-- Lines 87–110: the enabled-activities loop, threading the oracle table.
For each remaining flow whose target is a model activity: with no finished
events the enabled time is the case's earliest start time; otherwise the
activity name is lazily registered in the oracle table (inserted empty when
absent) and the oracle is queried one second after the latest finished end
time. -/
def enabledActivitiesOf (S : Services) (m : BPMNModel) (tbl0 : OracleTable)
    (flows : List String) (group finished : List Event) :
    List EnabledRec × OracleTable :=
  flows.foldl (fun (acc : List EnabledRec × OracleTable) flow_id =>
    match dlookup m.sequence_flows flow_id with
    | none => acc
    | some target =>
      match dlookup m.activities target with
      | none => acc
      | some name =>
        if finished.length == 0 then
          (acc.1 ++ [{ id := target,
                       enabled_time := listMin (group.filterMap (fun e => e.start_time)) }],
           acc.2)
        else
          let t' := if (dlookup acc.2 name).isSome then acc.2 else dinsert acc.2 name []
          let probe := (listMax (finished.filterMap (fun e => e.end_time))).getD 0 + 1
          (acc.1 ++ [{ id := target, enabled_time := S.enabled_since finished name probe }],
           t')) ([], tbl0)

/-- Lines 56–71 of `bpmn_handler.py`, inner fold: scan the sequence flows in
order; for each flow targeting the current node, mark its source visited and
push it, unless already visited. Returns (visited, pushed-in-order). -/
def expandPreds (m : BPMNModel) :
    List (String × String) → String → List String → List String →
    List String × List String
  | [], _, v, p => (v, p)
  | (sf_id, tgt) :: rest, current, v, p =>
    if tgt == current then
      let src := flowSourceOf m sf_id
      if v.contains src then expandPreds m rest current v p
      else expandPreds m rest current (src :: v) (p ++ [src])
    else expandPreds m rest current v p

/-- The universe of nodes the traversal can ever mark visited: every flow
source (plus the inert default). -/
def srcUniv (m : BPMNModel) : List String :=
  "" :: m.flow_sources.map (fun p => p.2)

/-- Number of universe entries not yet visited: the termination measure's
first component. -/
def countNew (m : BPMNModel) (v : List String) : Nat :=
  ((srcUniv m).filter (fun s => !(decide (s ∈ v)))).length

theorem dlookup_mem {κ α : Type} [BEq κ] {m : List (κ × α)} {k : κ} {v : α}
    (h : dlookup m k = some v) :
    ∃ q, q ∈ m ∧ (q.1 == k) = true ∧ q.2 = v := by
  unfold dlookup at h
  obtain ⟨q, hfind, hsnd⟩ := Option.map_eq_some'.mp h
  have hp := List.find?_some hfind
  exact ⟨q, List.mem_of_find?_eq_some hfind, hp, hsnd⟩

theorem flowSourceOf_mem_univ (m : BPMNModel) (sf_id : String) :
    flowSourceOf m sf_id ∈ srcUniv m := by
  unfold flowSourceOf
  cases h : dlookup m.flow_sources sf_id with
  | none => simp [srcUniv]
  | some w =>
    obtain ⟨q, hq, _, hsnd⟩ := dlookup_mem h
    simp only [Option.getD_some, srcUniv, List.mem_cons]
    exact Or.inr (hsnd ▸ List.mem_map_of_mem _ hq)

theorem expandPreds_spec (m : BPMNModel) (fs : List (String × String))
    (current : String) (v p : List String) :
    ∃ news, (expandPreds m fs current v p).1 = news.reverse ++ v ∧
      (expandPreds m fs current v p).2 = p ++ news ∧
      (∀ x ∈ news, x ∈ srcUniv m ∧ x ∉ v ∧
        ∃ q, q ∈ fs ∧ q.2 = current ∧ flowSourceOf m q.1 = x) := by
  induction fs generalizing v p with
  | nil => exact ⟨[], by simp [expandPreds]⟩
  | cons hd tl ih =>
    obtain ⟨sf_id, tgt⟩ := hd
    by_cases htgt : (tgt == current) = true
    · by_cases hv : flowSourceOf m sf_id ∈ v
      · obtain ⟨news, h1, h2, h3⟩ := ih v p
        refine ⟨news, ?_, ?_, ?_⟩
        · simpa [expandPreds, htgt, hv] using h1
        · simpa [expandPreds, htgt, hv] using h2
        · intro x hx
          obtain ⟨hu, hnv, q, hq, hq2, hq3⟩ := h3 x hx
          exact ⟨hu, hnv, q, List.mem_cons_of_mem _ hq, hq2, hq3⟩
      · obtain ⟨news, h1, h2, h3⟩ := ih (flowSourceOf m sf_id :: v) (p ++ [flowSourceOf m sf_id])
        refine ⟨flowSourceOf m sf_id :: news, ?_, ?_, ?_⟩
        · simpa [expandPreds, htgt, hv] using h1
        · simpa [expandPreds, htgt, hv] using h2
        · intro x hx
          rcases List.mem_cons.mp hx with hx | hx
          · subst hx
            exact ⟨flowSourceOf_mem_univ m sf_id, hv,
              ⟨sf_id, tgt⟩, List.mem_cons_self _ _, by simpa using htgt, rfl⟩
          · obtain ⟨hu, hnv, q, hq, hq2, hq3⟩ := h3 x hx
            refine ⟨hu, ?_, q, List.mem_cons_of_mem _ hq, hq2, hq3⟩
            exact fun hc => hnv (List.mem_cons_of_mem _ hc)
    · obtain ⟨news, h1, h2, h3⟩ := ih v p
      refine ⟨news, ?_, ?_, ?_⟩
      · simpa [expandPreds, htgt] using h1
      · simpa [expandPreds, htgt] using h2
      · intro x hx
        obtain ⟨hu, hnv, q, hq, hq2, hq3⟩ := h3 x hx
        exact ⟨hu, hnv, q, List.mem_cons_of_mem _ hq, hq2, hq3⟩

theorem filter_length_le_of_imp {α : Type} (p q : α → Bool) (l : List α)
    (h : ∀ a ∈ l, p a = true → q a = true) :
    (l.filter p).length ≤ (l.filter q).length := by
  induction l with
  | nil => simp
  | cons x xs ih =>
    have ih' := ih (fun a ha => h a (List.mem_cons_of_mem _ ha))
    by_cases hp : p x = true
    · have hq := h x (List.mem_cons_self _ _) hp
      simp [List.filter_cons, hp, hq]
      omega
    · simp only [List.filter_cons]
      rw [Bool.not_eq_true] at hp
      rw [hp]
      by_cases hq : q x = true
      · simp [hq]; omega
      · rw [Bool.not_eq_true] at hq
        rw [hq]
        exact ih'

theorem filter_length_lt_of_imp {α : Type} (p q : α → Bool) (l : List α)
    (h : ∀ a ∈ l, p a = true → q a = true) (x : α) (hx : x ∈ l)
    (hq : q x = true) (hp : p x = false) :
    (l.filter p).length < (l.filter q).length := by
  induction l with
  | nil => cases hx
  | cons y ys ih =>
    have hle : ((ys.filter p).length ≤ (ys.filter q).length) :=
      filter_length_le_of_imp p q ys (fun a ha => h a (List.mem_cons_of_mem _ ha))
    rcases List.mem_cons.mp hx with hxy | hxy
    · subst hxy
      simp only [List.filter_cons, hq, hp, if_true]
      simp
      omega
    · have ih' := ih (fun a ha => h a (List.mem_cons_of_mem _ ha)) hxy
      by_cases hpy : p y = true
      · have hqy := h y (List.mem_cons_self _ _) hpy
        simp [List.filter_cons, hpy, hqy]
        omega
      · rw [Bool.not_eq_true] at hpy
        simp only [List.filter_cons, hpy]
        by_cases hqy : q y = true
        · simp [hqy]; omega
        · rw [Bool.not_eq_true] at hqy
          rw [hqy]
          exact ih'

theorem countNew_le_of_append (m : BPMNModel) (news v : List String) :
    countNew m (news.reverse ++ v) ≤ countNew m v := by
  apply filter_length_le_of_imp
  intro a _ hpa
  simp only [Bool.not_eq_true', decide_eq_false_iff_not] at *
  exact fun h => hpa (List.mem_append_right _ h)

theorem countNew_lt_of_new (m : BPMNModel) (news v : List String) (x : String)
    (hxu : x ∈ srcUniv m) (hxv : x ∉ v) (hxn : x ∈ news.reverse ++ v) :
    countNew m (news.reverse ++ v) < countNew m v := by
  apply filter_length_lt_of_imp _ _ _ ?_ x hxu
  · simp [hxv]
  · simp [hxn]
  · intro a _ hpa
    simp only [Bool.not_eq_true', decide_eq_false_iff_not] at *
    exact fun h => hpa (List.mem_append_right _ h)


/-- Lines 56–71 of `bpmn_handler.py`, outer loop of
`get_upstream_tasks_through_gateways`: pop a node; an activity is recorded
and not expanded further (activities are traversal boundaries); any other
node has its flow predecessors pushed, guarded by the visited set. Total for
every finite model, cyclic flow graphs included: each iteration either marks
a previously unvisited flow source visited or shrinks the stack. -/
def upLoop (m : BPMNModel) : List String → List String → List String → List String
  | _, [], tasks => tasks
  | v, current :: rest, tasks =>
    if (dlookup m.activities current).isSome then
      upLoop m v rest (if current ∈ tasks then tasks else tasks ++ [current])
    else
      let vp := expandPreds m m.sequence_flows current v []
      upLoop m vp.1 (vp.2.reverse ++ rest) tasks
termination_by v stack _ => (countNew m v, stack.length)
decreasing_by
  · simp [Prod.lex_iff]
  · obtain ⟨news, h1, h2, h3⟩ := expandPreds_spec m m.sequence_flows current v []
    simp only [Prod.lex_iff]
    cases news with
    | nil =>
      right
      constructor
      · rw [h1]; simp
      · rw [h2]; simp
    | cons x xs =>
      left
      rw [h1]
      obtain ⟨hxu, hxv, _⟩ := h3 x (List.mem_cons_self _ _)
      exact countNew_lt_of_new m (x :: xs) v x hxu hxv
        (List.mem_append_left _ (by simp))

/-- `BPMNHandler.get_upstream_tasks_through_gateways`. -/
def get_upstream_tasks_through_gateways (m : BPMNModel) (gateway_id : String) :
    List String :=
  upLoop m [] [gateway_id] []

/-- `finished_activities[end_time].max()`: maximum end time of a list of
events (pandas skips nulls; `none` when no value exists). -/
def maxEndTime (evs : List Event) : Option Nat :=
  listMax (evs.filterMap (fun e => e.end_time))

/-- `min(group[start_time])`: minimum start time of a list of events. -/
def minStartTime (evs : List Event) : Option Nat :=
  listMin (evs.filterMap (fun e => e.start_time))

/-- Lines 146–159 of `state_computer.py`,
`StateComputer._compute_gateway_enabled_time`: with no upstream tasks, the
global maximum end time over the finished events; otherwise the maximum end
time among finished events whose activity name is an upstream task's name,
falling back to the global maximum when undefined. -/
def compute_gateway_enabled_time (m : BPMNModel) (gateway_id : String)
    (ended_df : List Event) : Option Nat :=
  let tasks_upstream := get_upstream_tasks_through_gateways m gateway_id
  if tasks_upstream.isEmpty then maxEndTime ended_df
  else
    let task_names := tasks_upstream.filterMap (fun t_id => dlookup m.activities t_id)
    let sub_df := ended_df.filter (fun e => task_names.contains e.activity)
    match maxEndTime sub_df with
    | some v => some v
    | none => maxEndTime ended_df

/-- Lines 112–127: the enabled-gateways loop. For each remaining flow whose
target is a (truthy) non-activity element: skip it when its upstream task
set intersects the ongoing-activity ids, otherwise report it with its
enabled time when that time is defined. -/
def enabledGatewaysOf (m : BPMNModel) (flows : List String)
    (ongoing_ids : List (Option String)) (finished : List Event) :
    List GatewayRec :=
  flows.foldl (fun acc flow_id =>
    match dlookup m.sequence_flows flow_id with
    | none => acc
    | some gw_id =>
      if gw_id != "" && (dlookup m.activities gw_id).isNone then
        let tasks_upstream := get_upstream_tasks_through_gateways m gw_id
        if tasks_upstream.any (fun t => ongoing_ids.contains (some t)) then acc
        else
          match compute_gateway_enabled_time m gw_id finished with
          | none => acc
          | some v => acc ++ [{ id := gw_id, enabled_time := v }]
      else acc) []

/-- The ongoing records of a case: `ongoingOf` on the start-time-sorted group. -/
def caseOngoingOf (w : World) (group : List Event) : List OngoingRecord :=
  ongoingOf w.model w.concurrency (sortByStart group)

/-- The working flow set of a case: the matcher's marking for the case trace,
narrowed by the ongoing-activity correction. -/
def caseFlowsOf (S : Services) (w : World) (group : List Event) : List String :=
  intersectOngoing w.graph ((caseOngoingOf w group).map (fun a => a.id))
    (S.matcher (traceOf (sortByStart group)))

/-- The finished events of a case (end time present), in sorted order. -/
def caseFinishedOf (group : List Event) : List Event :=
  (sortByStart group).filter (fun e => e.end_time.isSome)

/-- The enabled gateways of a case. -/
def caseGatewaysOf (S : Services) (w : World) (group : List Event) :
    List GatewayRec :=
  enabledGatewaysOf w.model (caseFlowsOf S w group)
    ((caseOngoingOf w group).map (fun a => a.id)) (caseFinishedOf group)

/-- Lines 22–143, one iteration of the per-case loop of
`StateComputer.compute_case_states`: build the ongoing records, query the
matcher, apply the ongoing correction, derive enabled activities (threading
the oracle table) and enabled gateways, and drop the case (returning `none`)
when any enabled gateway is a model end-event. -/
def computeCaseState (S : Services) (w : World) (group : List Event) :
    Option CaseState × World :=
  let og := caseOngoingOf w group
  let flows := caseFlowsOf S w group
  let fin := caseFinishedOf group
  let ea := enabledActivitiesOf S w.model w.concurrency flows (sortByStart group) fin
  let gws := caseGatewaysOf S w group
  if gws.any (fun gw => is_end_event w.model gw.id) then
    (none, { w with concurrency := ea.2 })
  else
    (some { control_flow_state := { flows := flows, activities := og.map (fun a => a.id) },
            ongoing_activities := og,
            enabled_activities := ea.1,
            enabled_gateways := gws },
     { w with concurrency := ea.2 })

/-- The distinct case ids of the log in ascending order
(`groupby` sorts its keys). -/
def caseIdsOf (log : List Event) : List String :=
  (sortStr (log.map (fun e => e.case))).dedup

/-- One iteration of the top-level loop of `compute_case_states`: run the
per-case computation on the case's group and append the record unless the
case was dropped. -/
def ccsStep (S : Services) (log : List Event)
    (acc : List (String × CaseState) × World) (case_id : String) :
    List (String × CaseState) × World :=
  match computeCaseState S acc.2 (log.filter (fun e => e.case == case_id)) with
  | (some cs, w') => (acc.1 ++ [(case_id, cs)], w')
  | (none, w') => (acc.1, w')

/-- `StateComputer.compute_case_states`: one pass over all cases, threading
the (only) mutable structure, the oracle's concurrency table, through the
per-case computations; surviving cases are emitted in groupby key order. -/
def compute_case_states (S : Services) (w : World) :
    List (String × CaseState) × World :=
  (caseIdsOf w.log).foldl (ccsStep S w.log) ([], w)

/-- The element-name conventions `parse_bpmn_xml` matches: namespaced tasks,
namespaced and non-namespaced end events, namespaced sequence flows, and
anything else (ignored). -/
inductive XmlTag
  | taskNS
  | endEventNS
  | endEventPlain
  | seqFlowNS
  | other
deriving DecidableEq, Repr

/-- One element of the model document: its (matched) tag and its attribute
dictionary. -/
structure XmlElem where
  tag : XmlTag
  attrs : List (String × String)
deriving DecidableEq, Repr

/-- A model source: `none` when the document is not well-formed
(`ET.parse` raises), otherwise the list of elements in document order. -/
def ModelSource : Type := Option (List XmlElem)

/-- Pass 1 (lines 26–30): extract tasks; `attrib['id']` raises on a missing
id; the name defaults to a synthetic unnamed-task label. -/
def parseTasksPass :
    List XmlElem → List (String × String) × List (String × String) →
    Except String (List (String × String) × List (String × String))
  | [], st => .ok st
  | el :: rest, st =>
    match el.tag with
    | .taskNS =>
      match dlookup el.attrs "id" with
      | none => .error "KeyError: id"
      | some t_id =>
        let t_name := (dlookup el.attrs "name").getD ("Unnamed Task " ++ t_id)
        parseTasksPass rest (dinsert st.1 t_id t_name, dinsert st.2 t_name t_id)
    | _ => parseTasksPass rest st

/-- Passes 2 and 3 (lines 32–40): extract end events of the given convention;
`attrib['id']` raises on a missing id; the two passes union into one set. -/
def parseEndEventsPass (which : XmlTag) :
    List XmlElem → List String → Except String (List String)
  | [], st => .ok st
  | el :: rest, st =>
    if el.tag = which then
      match dlookup el.attrs "id" with
      | none => .error "KeyError: id"
      | some event_id =>
        parseEndEventsPass which rest (if st.contains event_id then st else st ++ [event_id])
    else parseEndEventsPass which rest st

/-- Pass 4 (lines 42–46): extract sequence flows; `attrib` raises on a
missing `id`, `targetRef` or `sourceRef`. -/
def parseFlowsPass :
    List XmlElem → List (String × String) × List (String × String) →
    Except String (List (String × String) × List (String × String))
  | [], st => .ok st
  | el :: rest, st =>
    match el.tag with
    | .seqFlowNS =>
      match dlookup el.attrs "id" with
      | none => .error "KeyError: id"
      | some sf_id =>
        match dlookup el.attrs "targetRef" with
        | none => .error "KeyError: targetRef"
        | some tgt =>
          match dlookup el.attrs "sourceRef" with
          | none => .error "KeyError: sourceRef"
          | some src =>
            parseFlowsPass rest (dinsert st.1 sf_id tgt, dinsert st.2 sf_id src)
    | _ => parseFlowsPass rest st

/-- `BPMNHandler.parse_bpmn_xml` (lines 19–46): a malformed source fails at
`ET.parse`; otherwise the four extraction passes run in order and any
missing required attribute raises. On failure no model value exists at all
(the constructor never returns), so no partial model is retained. -/
def parse_bpmn_xml (src : ModelSource) : Except String BPMNModel :=
  match src with
  | none => .error "ParseError: malformed model source"
  | some elems => do
    let acts ← parseTasksPass elems ([], [])
    let ee1 ← parseEndEventsPass XmlTag.endEventNS elems []
    let ee2 ← parseEndEventsPass XmlTag.endEventPlain elems ee1
    let fl ← parseFlowsPass elems ([], [])
    .ok { sequence_flows := fl.1, flow_sources := fl.2,
          activities := acts.1, task_name_to_id := acts.2, end_events := ee2 }

/-- The required attributes of one element, per the spec's load contract:
an id on every matched task, end-event and sequence-flow element, and
`targetRef`/`sourceRef` on flows. -/
def elemAttrsOk (el : XmlElem) : Bool :=
  match el.tag with
  | .taskNS => (dlookup el.attrs "id").isSome
  | .endEventNS => (dlookup el.attrs "id").isSome
  | .endEventPlain => (dlookup el.attrs "id").isSome
  | .seqFlowNS => (dlookup el.attrs "id").isSome &&
      (dlookup el.attrs "targetRef").isSome && (dlookup el.attrs "sourceRef").isSome
  | .other => true

theorem sinter_subset {a b : List String} {x : String} (h : x ∈ sinter a b) :
    x ∈ a := by
  exact (List.mem_filter.mp h).1

/-- The ongoing correction only ever narrows the working flow set. -/
theorem intersectOngoing_subset (g : ReachabilityGraph)
    (ids : List (Option String)) (marking : List String) :
    ∀ x ∈ intersectOngoing g ids marking, x ∈ marking := by
  unfold intersectOngoing
  cases dlookup g.marking_to_key (canonKey marking) with
  | none => intro x hx; exact hx
  | some mid =>
    dsimp only
    generalize (dlookup g.incoming_edges mid).getD [] = inc
    suffices hgen : ∀ (l : List (Option String)) (fl : List String),
        ∀ x ∈ l.foldl (fun fl tid =>
          match inc.find? (fun eid => dlookup g.edge_to_activity eid == tid) with
          | none => fl
          | some eid => sinter fl ((dlookup g.markings
              (((dlookup g.edges eid).getD (0, 0)).1)).getD [])) fl, x ∈ fl by
      intro x hx
      exact hgen ids marking x hx
    intro l
    induction l with
    | nil => intro fl x hx; exact hx
    | cons tid rest ih =>
      intro fl x hx
      simp only [List.foldl_cons] at hx
      cases hfind : inc.find? (fun eid => dlookup g.edge_to_activity eid == tid) with
      | none =>
        rw [hfind] at hx
        exact ih fl x hx
      | some eid =>
        rw [hfind] at hx
        exact sinter_subset (ih _ x hx)

/-- The per-case computation touches the world only at the oracle table. -/
theorem computeCaseState_world (S : Services) (w : World) (group : List Event) :
    ∃ t, (computeCaseState S w group).2 = { w with concurrency := t } := by
  unfold computeCaseState
  dsimp only
  split
  · exact ⟨_, rfl⟩
  · exact ⟨_, rfl⟩

/-- The resolved-id list of the ongoing records, read off the group directly. -/
def ongoingIdsOf (m : BPMNModel) (group : List Event) : List (Option String) :=
  ((sortByStart group).filter (fun e => e.end_time.isNone)).map
    (fun e => dlookup m.task_name_to_id e.activity)

theorem ongoingOf_map_id (m : BPMNModel) (tbl : OracleTable) (group : List Event) :
    (ongoingOf m tbl group).map (fun a => a.id) =
      (group.filter (fun e => e.end_time.isNone)).map
        (fun e => dlookup m.task_name_to_id e.activity) := by
  unfold ongoingOf
  rw [List.map_map]
  rfl

theorem caseOngoingOf_map_id (w : World) (group : List Event) :
    (caseOngoingOf w group).map (fun a => a.id) = ongoingIdsOf w.model group := by
  unfold caseOngoingOf ongoingIdsOf
  exact ongoingOf_map_id _ _ _

/-- The working flow set of a case, as a function of the read-only state. -/
def caseFlowsPure (S : Services) (m : BPMNModel) (g : ReachabilityGraph)
    (group : List Event) : List String :=
  intersectOngoing g (ongoingIdsOf m group) (S.matcher (traceOf (sortByStart group)))

theorem caseFlowsOf_eq (S : Services) (w : World) (group : List Event) :
    caseFlowsOf S w group = caseFlowsPure S w.model w.graph group := by
  unfold caseFlowsOf caseFlowsPure
  rw [caseOngoingOf_map_id]

/-- The enabled gateways of a case, as a function of the read-only state. -/
def caseGatewaysPure (S : Services) (m : BPMNModel) (g : ReachabilityGraph)
    (group : List Event) : List GatewayRec :=
  enabledGatewaysOf m (caseFlowsPure S m g group) (ongoingIdsOf m group)
    (caseFinishedOf group)

theorem caseGatewaysOf_eq (S : Services) (w : World) (group : List Event) :
    caseGatewaysOf S w group = caseGatewaysPure S w.model w.graph group := by
  unfold caseGatewaysOf caseGatewaysPure
  rw [caseFlowsOf_eq, caseOngoingOf_map_id]

/-- Whether a case is dropped by the end-event exclusion, as a function of
the read-only state. -/
def caseDropped (S : Services) (m : BPMNModel) (g : ReachabilityGraph)
    (group : List Event) : Bool :=
  (caseGatewaysPure S m g group).any (fun gw => is_end_event m gw.id)

theorem computeCaseState_fst_none (S : Services) (w : World) (group : List Event) :
    (computeCaseState S w group).1 = none ↔
      caseDropped S w.model w.graph group = true := by
  unfold computeCaseState caseDropped
  dsimp only
  rw [caseGatewaysOf_eq]
  split
  · next h => simpa using h
  · next h => simpa using h

/-- Shape of an emitted case record: each field is the corresponding
intermediate value of the reconstruction pipeline. -/
theorem computeCaseState_fst_some (S : Services) (w : World) (group : List Event)
    (cs : CaseState) (h : (computeCaseState S w group).1 = some cs) :
    cs.control_flow_state.flows = caseFlowsPure S w.model w.graph group ∧
    cs.control_flow_state.activities =
      (caseOngoingOf w group).map (fun a => a.id) ∧
    cs.ongoing_activities = caseOngoingOf w group ∧
    cs.enabled_gateways = caseGatewaysPure S w.model w.graph group := by
  unfold computeCaseState at h
  dsimp only at h
  split at h
  · cases h
  · have hcs := Option.some_injective _ h
    subst hcs
    exact ⟨(caseFlowsOf_eq S w group).symm ▸ rfl, rfl, rfl,
      (caseGatewaysOf_eq S w group)⟩

/-- Every emitted pair of the top-level fold comes from a successful
per-case computation at some world that differs from the base world only in
the oracle table. -/
theorem ccs_fold_mem (S : Services) (log : List Event) (cids : List String)
    (acc : List (String × CaseState) × World) (case_id : String) (cs : CaseState)
    (h : (case_id, cs) ∈ (cids.foldl (ccsStep S log) acc).1) :
    (case_id, cs) ∈ acc.1 ∨
      ∃ w', w'.model = acc.2.model ∧ w'.graph = acc.2.graph ∧ w'.log = acc.2.log ∧
        (computeCaseState S w' (log.filter (fun e => e.case == case_id))).1 = some cs := by
  induction cids generalizing acc with
  | nil => exact Or.inl h
  | cons cid0 rest ih =>
    simp only [List.foldl_cons] at h
    rcases ih (ccsStep S log acc cid0) h with hin | ⟨w', hm, hg, hl, hc⟩
    · obtain ⟨t, ht⟩ := computeCaseState_world S acc.2 (log.filter (fun e => e.case == cid0))
      unfold ccsStep at hin
      split at hin
      · next cs0 w1 heq =>
        rcases List.mem_append.mp hin with hin | hin
        · exact Or.inl hin
        · rcases List.mem_singleton.mp hin with heq2
          obtain ⟨h1, h2⟩ := Prod.mk.injEq .. ▸ heq2
          subst h1
          refine Or.inr ⟨acc.2, rfl, rfl, rfl, ?_⟩
          rw [show (computeCaseState S acc.2
            (log.filter (fun e => e.case == case_id))).1 = some cs0 from
              congrArg Prod.fst heq ▸ rfl]
          rw [h2]
      · exact Or.inl hin
    · obtain ⟨t, ht⟩ := computeCaseState_world S acc.2 (log.filter (fun e => e.case == cid0))
      have hw1 : (ccsStep S log acc cid0).2.model = acc.2.model ∧
          (ccsStep S log acc cid0).2.graph = acc.2.graph ∧
          (ccsStep S log acc cid0).2.log = acc.2.log := by
        unfold ccsStep
        split
        · next cs0 w1 heq =>
          have : w1 = (computeCaseState S acc.2 (log.filter (fun e => e.case == cid0))).2 :=
            (congrArg Prod.snd heq).symm
          rw [this, ht]
          exact ⟨rfl, rfl, rfl⟩
        · next w1 heq =>
          have : w1 = (computeCaseState S acc.2 (log.filter (fun e => e.case == cid0))).2 :=
            (congrArg Prod.snd heq).symm
          rw [this, ht]
          exact ⟨rfl, rfl, rfl⟩
      exact Or.inr ⟨w', hm.trans hw1.1, hg.trans hw1.2.1, hl.trans hw1.2.2, hc⟩

/-- C1: for every case emitted by `compute_case_states`, the
`control_flow_state.flows` of its record is a subset of the marking the
trace matcher returns for that case's trace — the ongoing-activity
correction only ever intersects the working flow set with source-node
markings and never adds a flow id that was not in the matcher's result. -/
theorem flows_subset_matcher_marking (S : Services) (w : World)
    (case_id : String) (cs : CaseState)
    (h : (case_id, cs) ∈ (compute_case_states S w).1) :
    ∀ f ∈ cs.control_flow_state.flows,
      f ∈ S.matcher (traceOf (sortByStart
        (w.log.filter (fun e => e.case == case_id)))) := by
  unfold compute_case_states at h
  rcases ccs_fold_mem S w.log (caseIdsOf w.log) ([], w) case_id cs h with
    hin | ⟨w', _, _, _, hc⟩
  · cases hin
  · obtain ⟨hf, _, _, _⟩ := computeCaseState_fst_some S w' _ cs hc
    intro f hfmem
    rw [hf] at hfmem
    exact intersectOngoing_subset _ _ _ f hfmem

/-- An empty reachability graph (contributes nothing to correction). -/
def rgEmpty : ReachabilityGraph :=
  { marking_to_key := [], incoming_edges := [], edges := [],
    edge_to_activity := [], markings := [] }

/-- A trivial services instance: the matcher always returns the single
flow token `f1`; the oracle never answers. -/
def servicesW1 : Services :=
  { matcher := fun _ => ["f1"], enabled_since := fun _ _ _ => none }

/-- A one-event, one-case log over an empty model. -/
def worldW1 : World :=
  { model := { sequence_flows := [], flow_sources := [], activities := [],
               task_name_to_id := [], end_events := [] },
    graph := rgEmpty,
    log := [{ case := "c", activity := "a", resource := "r",
              start_time := some 1, end_time := some 2, enabled_time := none }],
    concurrency := [] }

/-- The record `compute_case_states` emits for case `c` of `worldW1`. -/
def caseStateW1 : CaseState :=
  { control_flow_state := { flows := ["f1"], activities := [] },
    ongoing_activities := [], enabled_activities := [], enabled_gateways := [] }

theorem flows_subset_matcher_marking_witness :
    ("c", caseStateW1) ∈ (compute_case_states servicesW1 worldW1).1 ∧
    ∀ f ∈ caseStateW1.control_flow_state.flows,
      f ∈ servicesW1.matcher (traceOf (sortByStart
        (worldW1.log.filter (fun e => e.case == "c")))) :=
  ⟨List.mem_singleton.mpr rfl,
   flows_subset_matcher_marking servicesW1 worldW1 "c" caseStateW1
    (List.mem_singleton.mpr rfl)⟩

theorem listMax_cons_isSome (x : Nat) (xs : List Nat) :
    (listMax (x :: xs)).isSome = true := by
  cases h : listMax xs <;> simp [listMax, h]

theorem maxEndTime_isSome (evs : List Event) (h1 : evs ≠ [])
    (h2 : ∀ e ∈ evs, e.end_time.isSome = true) :
    (maxEndTime evs).isSome = true := by
  cases evs with
  | nil => exact absurd rfl h1
  | cons e rest =>
    obtain ⟨v, hv⟩ := Option.isSome_iff_exists.mp (h2 e (List.mem_cons_self _ _))
    unfold maxEndTime
    rw [List.filterMap_cons]
    rw [hv]
    exact listMax_cons_isSome v _

/-- C5: the gateway enabled-time helper. With no upstream tasks it returns
the maximum end time over all finished events; with upstream tasks it
returns the maximum end time among finished events of the upstream task
names, falling back to the global maximum when none match; and whenever the
finished-events frame is nonempty (its rows all carry end times, as holds
for every frame the caller passes), the result is defined. -/
theorem gateway_enabled_time_spec (m : BPMNModel) (gateway_id : String)
    (ended_df : List Event) :
    (get_upstream_tasks_through_gateways m gateway_id = [] →
      compute_gateway_enabled_time m gateway_id ended_df = maxEndTime ended_df) ∧
    (∀ v, get_upstream_tasks_through_gateways m gateway_id ≠ [] →
      maxEndTime (ended_df.filter (fun e =>
        ((get_upstream_tasks_through_gateways m gateway_id).filterMap
          (fun t_id => dlookup m.activities t_id)).contains e.activity)) = some v →
      compute_gateway_enabled_time m gateway_id ended_df = some v) ∧
    (get_upstream_tasks_through_gateways m gateway_id ≠ [] →
      maxEndTime (ended_df.filter (fun e =>
        ((get_upstream_tasks_through_gateways m gateway_id).filterMap
          (fun t_id => dlookup m.activities t_id)).contains e.activity)) = none →
      compute_gateway_enabled_time m gateway_id ended_df = maxEndTime ended_df) ∧
    (ended_df ≠ [] → (∀ e ∈ ended_df, e.end_time.isSome = true) →
      (compute_gateway_enabled_time m gateway_id ended_df).isSome = true) := by
  refine ⟨?_, ?_, ?_, ?_⟩
  · intro h
    unfold compute_gateway_enabled_time
    simp [List.isEmpty_iff, h]
  · intro v h hsub
    unfold compute_gateway_enabled_time
    rw [if_neg (by simpa [List.isEmpty_iff] using h)]
    dsimp only
    rw [hsub]
  · intro h hsub
    unfold compute_gateway_enabled_time
    rw [if_neg (by simpa [List.isEmpty_iff] using h)]
    dsimp only
    rw [hsub]
  · intro h1 h2
    unfold compute_gateway_enabled_time
    by_cases hups : (get_upstream_tasks_through_gateways m gateway_id).isEmpty = true
    · rw [if_pos hups]
      exact maxEndTime_isSome ended_df h1 h2
    · rw [if_neg hups]
      dsimp only
      cases hsub : maxEndTime (ended_df.filter (fun e =>
        ((get_upstream_tasks_through_gateways m gateway_id).filterMap
          (fun t_id => dlookup m.activities t_id)).contains e.activity)) with
      | none =>
        exact maxEndTime_isSome ended_df h1 h2
      | some v =>
        rfl

/-- A one-task model: task `A` (named `a`) feeds gateway `G` via flow `f1`. -/
def modelW5 : BPMNModel :=
  { sequence_flows := [("f1", "G")], flow_sources := [("f1", "A")],
    activities := [("A", "a")], task_name_to_id := [("a", "A")], end_events := [] }

theorem modelW5_upstream : get_upstream_tasks_through_gateways modelW5 "G" = ["A"] := by
  simp +decide [get_upstream_tasks_through_gateways, upLoop, expandPreds, dlookup,
    flowSourceOf, modelW5]

/-- A finished event of task `A` of `modelW5`, ended at time 10. -/
def endedW5 : List Event :=
  [{ case := "c", activity := "a", resource := "r",
     start_time := some 3, end_time := some 10, enabled_time := none }]

theorem gateway_enabled_time_spec_witness :
    compute_gateway_enabled_time modelW5 "G" endedW5 = some 10 ∧
    (compute_gateway_enabled_time modelW5 "G" endedW5).isSome = true := by
  constructor
  · exact (gateway_enabled_time_spec modelW5 "G" endedW5).2.1 10
      (by rw [modelW5_upstream]; decide)
      (by rw [modelW5_upstream]; decide)
  · exact (gateway_enabled_time_spec modelW5 "G" endedW5).2.2.2
      (by decide) (by decide)

theorem isOk_bind {ε α β : Type} (x : Except ε α) (f : α → Except ε β) :
    (x >>= f).isOk = true ↔ ∃ a, x = Except.ok a ∧ (f a).isOk = true := by
  cases x with
  | error e => simp [Bind.bind, Except.bind, Except.isOk, Except.toBool]
  | ok a => simp [Bind.bind, Except.bind, Except.isOk, Except.toBool]

theorem parseTasksPass_isOk (l : List XmlElem) :
    ∀ st, (parseTasksPass l st).isOk = true ↔
      ∀ el ∈ l, el.tag = XmlTag.taskNS → (dlookup el.attrs "id").isSome = true := by
  induction l with
  | nil =>
    intro st
    simp [parseTasksPass, Except.isOk, Except.toBool]
  | cons el rest ih =>
    intro st
    obtain ⟨tag, attrs⟩ := el
    cases tag with
    | taskNS =>
      cases hid : dlookup attrs "id" with
      | none =>
        simp only [parseTasksPass, hid]
        constructor
        · intro h; cases h
        · intro h
          have := h ⟨XmlTag.taskNS, attrs⟩ (List.mem_cons_self _ _) rfl
          rw [hid] at this
          cases this
      | some t_id =>
        simp only [parseTasksPass, hid]
        rw [ih]
        constructor
        · intro h el hel htag
          rcases List.mem_cons.mp hel with rfl | hel
          · rw [hid]; rfl
          · exact h el hel htag
        · intro h el hel htag
          exact h el (List.mem_cons_of_mem _ hel) htag
    | endEventNS =>
      simp only [parseTasksPass]
      rw [ih]
      constructor
      · intro h el hel htag
        rcases List.mem_cons.mp hel with rfl | hel
        · cases htag
        · exact h el hel htag
      · intro h el hel htag
        exact h el (List.mem_cons_of_mem _ hel) htag
    | endEventPlain =>
      simp only [parseTasksPass]
      rw [ih]
      constructor
      · intro h el hel htag
        rcases List.mem_cons.mp hel with rfl | hel
        · cases htag
        · exact h el hel htag
      · intro h el hel htag
        exact h el (List.mem_cons_of_mem _ hel) htag
    | seqFlowNS =>
      simp only [parseTasksPass]
      rw [ih]
      constructor
      · intro h el hel htag
        rcases List.mem_cons.mp hel with rfl | hel
        · cases htag
        · exact h el hel htag
      · intro h el hel htag
        exact h el (List.mem_cons_of_mem _ hel) htag
    | other =>
      simp only [parseTasksPass]
      rw [ih]
      constructor
      · intro h el hel htag
        rcases List.mem_cons.mp hel with rfl | hel
        · cases htag
        · exact h el hel htag
      · intro h el hel htag
        exact h el (List.mem_cons_of_mem _ hel) htag

theorem parseEndEventsPass_isOk (which : XmlTag) (l : List XmlElem) :
    ∀ st, (parseEndEventsPass which l st).isOk = true ↔
      ∀ el ∈ l, el.tag = which → (dlookup el.attrs "id").isSome = true := by
  induction l with
  | nil =>
    intro st
    simp [parseEndEventsPass, Except.isOk, Except.toBool]
  | cons el rest ih =>
    intro st
    by_cases htag : el.tag = which
    · cases hid : dlookup el.attrs "id" with
      | none =>
        simp only [parseEndEventsPass, if_pos htag, hid]
        constructor
        · intro h; cases h
        · intro h
          have := h el (List.mem_cons_self _ _) htag
          rw [hid] at this
          cases this
      | some eid =>
        simp only [parseEndEventsPass, if_pos htag, hid]
        rw [ih]
        constructor
        · intro h el' hel' htag'
          rcases List.mem_cons.mp hel' with rfl | hel'
          · rw [hid]; rfl
          · exact h el' hel' htag'
        · intro h el' hel' htag'
          exact h el' (List.mem_cons_of_mem _ hel') htag'
    · simp only [parseEndEventsPass, if_neg htag]
      rw [ih]
      constructor
      · intro h el' hel' htag'
        rcases List.mem_cons.mp hel' with rfl | hel'
        · exact absurd htag' htag
        · exact h el' hel' htag'
      · intro h el' hel' htag'
        exact h el' (List.mem_cons_of_mem _ hel') htag'

theorem parseFlowsPass_isOk (l : List XmlElem) :
    ∀ st, (parseFlowsPass l st).isOk = true ↔
      ∀ el ∈ l, el.tag = XmlTag.seqFlowNS →
        ((dlookup el.attrs "id").isSome = true ∧
         (dlookup el.attrs "targetRef").isSome = true ∧
         (dlookup el.attrs "sourceRef").isSome = true) := by
  induction l with
  | nil =>
    intro st
    simp [parseFlowsPass, Except.isOk, Except.toBool]
  | cons el rest ih =>
    intro st
    obtain ⟨tag, attrs⟩ := el
    by_cases htag : tag = XmlTag.seqFlowNS
    · subst htag
      cases hid : dlookup attrs "id" with
      | none =>
        simp only [parseFlowsPass, hid]
        constructor
        · intro h; cases h
        · intro h
          have := (h ⟨XmlTag.seqFlowNS, attrs⟩ (List.mem_cons_self _ _) rfl).1
          rw [hid] at this
          cases this
      | some sf_id =>
        cases htgt : dlookup attrs "targetRef" with
        | none =>
          simp only [parseFlowsPass, hid, htgt]
          constructor
          · intro h; cases h
          · intro h
            have := (h ⟨XmlTag.seqFlowNS, attrs⟩ (List.mem_cons_self _ _) rfl).2.1
            rw [htgt] at this
            cases this
        | some tgt =>
          cases hsrc : dlookup attrs "sourceRef" with
          | none =>
            simp only [parseFlowsPass, hid, htgt, hsrc]
            constructor
            · intro h; cases h
            · intro h
              have := (h ⟨XmlTag.seqFlowNS, attrs⟩ (List.mem_cons_self _ _) rfl).2.2
              rw [hsrc] at this
              cases this
          | some src =>
            simp only [parseFlowsPass, hid, htgt, hsrc]
            rw [ih]
            constructor
            · intro h el' hel' htag'
              rcases List.mem_cons.mp hel' with rfl | hel'
              · rw [hid, htgt, hsrc]; exact ⟨rfl, rfl, rfl⟩
              · exact h el' hel' htag'
            · intro h el' hel' htag'
              exact h el' (List.mem_cons_of_mem _ hel') htag'
    · have hstep : parseFlowsPass (⟨tag, attrs⟩ :: rest) st = parseFlowsPass rest st := by
        cases tag with
        | taskNS => rfl
        | endEventNS => rfl
        | endEventPlain => rfl
        | seqFlowNS => exact absurd rfl htag
        | other => rfl
      rw [hstep, ih]
      constructor
      · intro h el' hel' htag'
        rcases List.mem_cons.mp hel' with rfl | hel'
        · exact absurd htag' htag
        · exact h el' hel' htag'
      · intro h el' hel' htag'
        exact h el' (List.mem_cons_of_mem _ hel') htag'

theorem elemAttrsOk_split (elems : List XmlElem) :
    (∀ el ∈ elems, elemAttrsOk el = true) ↔
      ((∀ el ∈ elems, el.tag = XmlTag.taskNS →
          (dlookup el.attrs "id").isSome = true) ∧
       (∀ el ∈ elems, el.tag = XmlTag.endEventNS →
          (dlookup el.attrs "id").isSome = true) ∧
       (∀ el ∈ elems, el.tag = XmlTag.endEventPlain →
          (dlookup el.attrs "id").isSome = true) ∧
       (∀ el ∈ elems, el.tag = XmlTag.seqFlowNS →
          ((dlookup el.attrs "id").isSome = true ∧
           (dlookup el.attrs "targetRef").isSome = true ∧
           (dlookup el.attrs "sourceRef").isSome = true))) := by
  constructor
  · intro h
    refine ⟨?_, ?_, ?_, ?_⟩ <;>
      · intro el hel htag
        have := h el hel
        obtain ⟨tag, attrs⟩ := el
        cases htag
        simpa [elemAttrsOk, Bool.and_eq_true, and_assoc] using this
  · rintro ⟨h1, h2, h3, h4⟩ el hel
    obtain ⟨tag, attrs⟩ := el
    cases tag with
    | taskNS => simpa [elemAttrsOk] using h1 _ hel rfl
    | endEventNS => simpa [elemAttrsOk] using h2 _ hel rfl
    | endEventPlain => simpa [elemAttrsOk] using h3 _ hel rfl
    | seqFlowNS =>
      simpa [elemAttrsOk, Bool.and_eq_true, and_assoc] using h4 _ hel rfl
    | other => rfl

/-- C7: model loading succeeds exactly when the source is well-formed and
every matched task, end-event and sequence-flow element carries its
required attributes (`id` everywhere, `targetRef`/`sourceRef` on flows);
otherwise the load fails with a parse error that propagates immediately —
the `Except.error` result carries no model value, so no partial model is
ever retained. -/
theorem parse_bpmn_xml_ok_iff (src : ModelSource) :
    (parse_bpmn_xml src).isOk = true ↔
      ∃ elems, src = some elems ∧ ∀ el ∈ elems, elemAttrsOk el = true := by
  cases src with
  | none =>
    constructor
    · intro h; cases h
    · rintro ⟨elems, h, _⟩; cases h
  | some elems =>
    unfold parse_bpmn_xml
    constructor
    · intro h
      rw [isOk_bind] at h
      obtain ⟨acts, hacts, h⟩ := h
      rw [isOk_bind] at h
      obtain ⟨ee1, hee1, h⟩ := h
      rw [isOk_bind] at h
      obtain ⟨ee2, hee2, h⟩ := h
      rw [isOk_bind] at h
      obtain ⟨fl, hfl, _⟩ := h
      refine ⟨elems, rfl, (elemAttrsOk_split elems).mpr ⟨?_, ?_, ?_, ?_⟩⟩
      · exact (parseTasksPass_isOk elems ([], [])).mp (by rw [hacts]; rfl)
      · exact (parseEndEventsPass_isOk XmlTag.endEventNS elems []).mp
          (by rw [hee1]; rfl)
      · exact (parseEndEventsPass_isOk XmlTag.endEventPlain elems ee1).mp
          (by rw [hee2]; rfl)
      · exact (parseFlowsPass_isOk elems ([], [])).mp (by rw [hfl]; rfl)
    · rintro ⟨elems', heq, hok⟩
      have heq' : elems = elems' := by injection heq
      subst heq'
      obtain ⟨h1, h2, h3, h4⟩ := (elemAttrsOk_split elems).mp hok
      have t1 := (parseTasksPass_isOk elems ([], [])).mpr h1
      rw [isOk_bind]
      cases hc1 : parseTasksPass elems ([], []) with
      | error e => rw [hc1] at t1; cases t1
      | ok acts =>
        refine ⟨acts, rfl, ?_⟩
        have t2 := (parseEndEventsPass_isOk XmlTag.endEventNS elems []).mpr h2
        rw [isOk_bind]
        cases hc2 : parseEndEventsPass XmlTag.endEventNS elems [] with
        | error e => rw [hc2] at t2; cases t2
        | ok ee1 =>
          refine ⟨ee1, rfl, ?_⟩
          have t3 := (parseEndEventsPass_isOk XmlTag.endEventPlain elems ee1).mpr h3
          rw [isOk_bind]
          cases hc3 : parseEndEventsPass XmlTag.endEventPlain elems ee1 with
          | error e => rw [hc3] at t3; cases t3
          | ok ee2 =>
            refine ⟨ee2, rfl, ?_⟩
            have t4 := (parseFlowsPass_isOk elems ([], [])).mpr h4
            rw [isOk_bind]
            cases hc4 : parseFlowsPass elems ([], []) with
            | error e => rw [hc4] at t4; cases t4
            | ok fl => exact ⟨fl, rfl, rfl⟩

/-- A backward path through the sequence-flow graph from `s` down to `u`
whose every intermediate node (every node the search expanded, i.e. all but
the endpoint `u`) is not an activity: the shape of search paths of
`get_upstream_tasks_through_gateways`, which stop at the first activity. -/
inductive FreePath (m : BPMNModel) : String → String → Prop
  | refl (s : String) : FreePath m s s
  | snoc (s c u : String) : FreePath m s c → dlookup m.activities c = none →
      (∃ q, q ∈ m.sequence_flows ∧ q.2 = c ∧ flowSourceOf m q.1 = u) →
      FreePath m s u

theorem upLoop_sound (m : BPMNModel) (start : String) :
    ∀ v stack tasks, (∀ s ∈ stack, FreePath m start s) →
      (∀ x ∈ tasks, (dlookup m.activities x).isSome = true ∧ FreePath m start x) →
      ∀ t ∈ upLoop m v stack tasks,
        (dlookup m.activities t).isSome = true ∧ FreePath m start t := by
  intro v stack tasks
  induction v, stack, tasks using upLoop.induct m with
  | case1 v tasks =>
    intro _ htasks t ht
    rw [upLoop] at ht
    exact htasks t ht
  | case2 v current rest tasks hcond ih =>
    intro hstack htasks t ht
    rw [upLoop, if_pos hcond] at ht
    refine ih (fun s hs => hstack s (List.mem_cons_of_mem _ hs)) ?_ t ht
    intro x hx
    by_cases hmem : current ∈ tasks
    · rw [dif_pos hmem] at hx
      exact htasks x hx
    · rw [dif_neg hmem] at hx
      rcases List.mem_append.mp hx with hx | hx
      · exact htasks x hx
      · rcases List.mem_singleton.mp hx with rfl
        exact ⟨hcond, hstack x (List.mem_cons_self _ _)⟩
  | case3 v current rest tasks hcond vp ih =>
    intro hstack htasks t ht
    rw [upLoop, if_neg hcond] at ht
    obtain ⟨news, h1, h2, h3⟩ := expandPreds_spec m m.sequence_flows current v []
    refine ih ?_ htasks t ht
    intro s hs
    rcases List.mem_append.mp hs with hs | hs
    · have hsnews : s ∈ news := by
        have := List.mem_reverse.mp hs
        rw [h2] at this
        simpa using this
      obtain ⟨_, _, hq⟩ := h3 s hsnews
      exact FreePath.snoc start current s (hstack current (List.mem_cons_self _ _))
        (Option.not_isSome_iff_eq_none.mp hcond) hq
    · exact hstack s (List.mem_cons_of_mem _ hs)

/-- C8: on every finite model — cyclic sequence-flow graphs included — the
backward upstream traversal terminates (`upLoop` is total, by the
lexicographic measure on unvisited sources and stack length), and every
task it returns is an activity reachable backward from the start element by
a path that crosses no other activity: each search path stops at the first
activity it reaches, so a task lying strictly behind another reached task
on a path is never collected from that path. -/
theorem upstream_tasks_sound (m : BPMNModel) (start t : String)
    (h : t ∈ get_upstream_tasks_through_gateways m start) :
    (dlookup m.activities t).isSome = true ∧ FreePath m start t := by
  refine upLoop_sound m start [] [start] [] ?_ ?_ t h
  · intro s hs
    rcases List.mem_singleton.mp hs with rfl
    exact FreePath.refl s
  · intro x hx
    cases hx

theorem upstream_tasks_sound_witness :
    (dlookup modelW5.activities "A").isSome = true ∧ FreePath modelW5 "G" "A" :=
  upstream_tasks_sound modelW5 "G" "A"
    (by rw [modelW5_upstream]; exact List.mem_singleton.mpr rfl)

/-- Every record the enabled-gateways loop emits passed the suppression
test: no upstream task of its gateway is among the ongoing-activity ids. -/
theorem enabledGatewaysOf_no_ongoing (m : BPMNModel)
    (ongoing_ids : List (Option String)) (finished : List Event) :
    ∀ (flows : List String) (acc : List GatewayRec),
      (∀ r ∈ acc, (get_upstream_tasks_through_gateways m r.id).any
        (fun t => ongoing_ids.contains (some t)) = false) →
      ∀ r ∈ flows.foldl (fun acc flow_id =>
        match dlookup m.sequence_flows flow_id with
        | none => acc
        | some gw_id =>
          if gw_id != "" && (dlookup m.activities gw_id).isNone then
            let tasks_upstream := get_upstream_tasks_through_gateways m gw_id
            if tasks_upstream.any (fun t => ongoing_ids.contains (some t)) then acc
            else
              match compute_gateway_enabled_time m gw_id finished with
              | none => acc
              | some v => acc ++ [{ id := gw_id, enabled_time := v }]
          else acc) acc,
      (get_upstream_tasks_through_gateways m r.id).any
        (fun t => ongoing_ids.contains (some t)) = false := by
  intro flows
  induction flows with
  | nil => intro acc hacc r hr; exact hacc r hr
  | cons flow_id rest ih =>
    intro acc hacc r hr
    simp only [List.foldl_cons] at hr
    refine ih _ ?_ r hr
    intro r' hr'
    cases hlk : dlookup m.sequence_flows flow_id with
    | none =>
      simp only [hlk] at hr'
      exact hacc r' hr'
    | some gw_id =>
      simp only [hlk] at hr'
      split at hr'
      · split at hr'
        · exact hacc r' hr'
        · next hany =>
          split at hr'
          · exact hacc r' hr'
          · rcases List.mem_append.mp hr' with hr' | hr'
            · exact hacc r' hr'
            · rcases List.mem_singleton.mp hr' with rfl
              simpa using hany
      · exact hacc r' hr'

/-- `enabledGatewaysOf` is that fold started from the empty accumulator. -/
theorem enabledGatewaysOf_suppressed (m : BPMNModel) (flows : List String)
    (ongoing_ids : List (Option String)) (finished : List Event) :
    ∀ r ∈ enabledGatewaysOf m flows ongoing_ids finished,
      (get_upstream_tasks_through_gateways m r.id).any
        (fun t => ongoing_ids.contains (some t)) = false := by
  intro r hr
  exact enabledGatewaysOf_no_ongoing m ongoing_ids finished flows []
    (by intro r' hr'; cases hr') r hr

/-- C4: for every emitted case and every flow of the final working set whose
target is not a model activity, if the target's upstream task set (per the
backward traversal) intersects the case's ongoing-activity ids, that target
never appears in the case's `enabled_gateways`. -/
theorem gateway_suppression (S : Services) (w : World) (case_id : String)
    (cs : CaseState) (flow gw : String)
    (h : (case_id, cs) ∈ (compute_case_states S w).1)
    (hflow : flow ∈ cs.control_flow_state.flows)
    (hgw : dlookup w.model.sequence_flows flow = some gw)
    (hact : dlookup w.model.activities gw = none)
    (hint : ∃ tsk ∈ get_upstream_tasks_through_gateways w.model gw,
      some tsk ∈ cs.ongoing_activities.map (fun a => a.id)) :
    ∀ rec ∈ cs.enabled_gateways, rec.id ≠ gw := by
  unfold compute_case_states at h
  rcases ccs_fold_mem S w.log (caseIdsOf w.log) ([], w) case_id cs h with
    hin | ⟨w', hm, hg, hl, hc⟩
  · cases hin
  · dsimp only at hm hg hl
    obtain ⟨_, _, hong, hgws⟩ := computeCaseState_fst_some S w' _ cs hc
    intro rec hrec hrid
    subst hrid
    rw [hgws] at hrec
    have hsupp := enabledGatewaysOf_suppressed w'.model
      (caseFlowsPure S w'.model w'.graph (w.log.filter (fun e => e.case == case_id)))
      (ongoingIdsOf w'.model (w.log.filter (fun e => e.case == case_id)))
      (caseFinishedOf (w.log.filter (fun e => e.case == case_id)))
      rec hrec
    obtain ⟨tsk, htsk, hmem⟩ := hint
    rw [hong, caseOngoingOf_map_id] at hmem
    rw [hm] at hsupp hmem
    exact (List.any_eq_false.mp hsupp tsk htsk)
      (by simpa using List.elem_eq_true_of_mem hmem)

/-- Model for the suppression witness: task `A` (named `a`) feeds
non-activity element `G` through flow `f1`; no end events. -/
def modelW4 : BPMNModel := modelW5

/-- Services for the suppression witness: the matcher pins the case on
flow `f1`. -/
def servicesW4 : Services :=
  { matcher := fun _ => ["f1"], enabled_since := fun _ _ _ => none }

/-- One case with a single ongoing execution of task `A`. -/
def worldW4 : World :=
  { model := modelW4, graph := rgEmpty,
    log := [{ case := "c", activity := "a", resource := "r",
              start_time := some 1, end_time := none, enabled_time := none }],
    concurrency := [] }

/-- The record emitted for case `c` of `worldW4`: gateway `G` is suppressed
because its sole upstream task `A` is ongoing. -/
def caseStateW4 : CaseState :=
  { control_flow_state := { flows := ["f1"], activities := [some "A"] },
    ongoing_activities := [{ id := some "A", start_time := some 1,
                             resource := "r", enabled_time := none }],
    enabled_activities := [], enabled_gateways := [] }

theorem computeW4 : (compute_case_states servicesW4 worldW4).1 =
    [("c", caseStateW4)] := by
  simp +decide [compute_case_states, caseIdsOf, ccsStep, computeCaseState,
    caseOngoingOf, ongoingOf, caseFlowsOf, intersectOngoing, caseFinishedOf,
    caseGatewaysOf, enabledGatewaysOf, enabledActivitiesOf,
    compute_gateway_enabled_time, get_upstream_tasks_through_gateways, upLoop,
    expandPreds, traceOf, sortByStart, insEv, startLtB, sortStr, insStr,
    strLtB, charListLt, charLtB, canonKey, dlookup, dinsert, sinter,
    flowSourceOf, is_end_event, maxEndTime, minStartTime, listMax, listMin,
    TRACE_START, servicesW4, worldW4, caseStateW4, modelW4, modelW5, rgEmpty]

theorem gateway_suppression_witness :
    (caseStateW4.enabled_gateways.map (fun rec => rec.id)).contains "G" = false := by
  cases hc : (caseStateW4.enabled_gateways.map (fun rec => rec.id)).contains "G" with
  | false => rfl
  | true =>
    obtain ⟨rec, hrec, hid⟩ := List.mem_map.mp (List.mem_of_elem_eq_true hc)
    exact absurd hid (gateway_suppression servicesW4 worldW4 "c" caseStateW4 "f1" "G"
      (by rw [computeW4]; exact List.mem_singleton.mpr rfl)
      (by decide) (by decide) (by decide)
      ⟨"A", by
        rw [show get_upstream_tasks_through_gateways worldW4.model "G" = ["A"] from
          modelW5_upstream]
        exact List.mem_singleton.mpr rfl, by decide⟩ rec hrec)

theorem computeCaseState_isSome_eq (S : Services) (w : World) (group : List Event) :
    (computeCaseState S w group).1.isSome =
      !(caseDropped S w.model w.graph group) := by
  cases ho : (computeCaseState S w group).1 with
  | none =>
    rw [(computeCaseState_fst_none S w group).mp ho]
    rfl
  | some cs =>
    have : ¬ caseDropped S w.model w.graph group = true := by
      intro hc
      rw [(computeCaseState_fst_none S w group).mpr hc] at ho
      cases ho
    rw [Bool.not_eq_true] at this
    rw [this]
    rfl

theorem ccs_fold_ids (S : Services) (base : World) (cids : List String) :
    ∀ (acc : List (String × CaseState)) (w0 : World),
      w0.model = base.model → w0.graph = base.graph →
      ((cids.foldl (ccsStep S base.log) (acc, w0)).1.map Prod.fst) =
        acc.map Prod.fst ++ cids.filter (fun cid =>
          !(caseDropped S base.model base.graph
            (base.log.filter (fun e => e.case == cid)))) := by
  induction cids with
  | nil =>
    intro acc w0 _ _
    simp
  | cons cid rest ih =>
    intro acc w0 hm hg
    simp only [List.foldl_cons, List.filter_cons]
    obtain ⟨t, ht⟩ := computeCaseState_world S w0
      (base.log.filter (fun e => e.case == cid))
    have hsome := computeCaseState_isSome_eq S w0
      (base.log.filter (fun e => e.case == cid))
    rw [hm, hg] at hsome
    cases hres : computeCaseState S w0 (base.log.filter (fun e => e.case == cid)) with
    | mk o w1 =>
      have hw1 : w1 = { w0 with concurrency := t } := by
        rw [show w1 = (computeCaseState S w0
          (base.log.filter (fun e => e.case == cid))).2 from
            (congrArg Prod.snd hres).symm, ht]
      have hw1m : w1.model = base.model := by rw [hw1]; exact hm
      have hw1g : w1.graph = base.graph := by rw [hw1]; exact hg
      rw [hres] at hsome
      cases o with
      | some cs =>
        have hkept : (!(caseDropped S base.model base.graph
            (base.log.filter (fun e => e.case == cid)))) = true := by
          rw [← hsome]; rfl
        rw [hkept]
        show ((rest.foldl (ccsStep S base.log) (ccsStep S base.log (acc, w0) cid)).1.map
          Prod.fst) = _
        have hstep : ccsStep S base.log (acc, w0) cid = (acc ++ [(cid, cs)], w1) := by
          unfold ccsStep
          rw [hres]
        rw [hstep, ih (acc ++ [(cid, cs)]) w1 hw1m hw1g]
        simp
      | none =>
        have hdropped : (!(caseDropped S base.model base.graph
            (base.log.filter (fun e => e.case == cid)))) = false := by
          rw [← hsome]; rfl
        rw [hdropped]
        show ((rest.foldl (ccsStep S base.log) (ccsStep S base.log (acc, w0) cid)).1.map
          Prod.fst) = _
        have hstep : ccsStep S base.log (acc, w0) cid = (acc, w1) := by
          unfold ccsStep
          rw [hres]
        rw [hstep, ih acc w1 hw1m hw1g]
        simp

theorem mem_insStr (x y : String) (l : List String) :
    y ∈ insStr x l ↔ y = x ∨ y ∈ l := by
  induction l with
  | nil => simp [insStr]
  | cons z zs ih =>
    by_cases h : strLtB z x = true
    · simp only [insStr, if_pos h, List.mem_cons, ih]
      tauto
    · simp only [insStr, if_neg h, List.mem_cons]

theorem mem_sortStr (y : String) (l : List String) :
    y ∈ sortStr l ↔ y ∈ l := by
  induction l with
  | nil => simp [sortStr]
  | cons x xs ih =>
    simp only [sortStr, mem_insStr, List.mem_cons, ih]

theorem mem_caseIdsOf (case_id : String) (log : List Event) :
    case_id ∈ caseIdsOf log ↔ case_id ∈ log.map (fun e => e.case) := by
  unfold caseIdsOf
  rw [List.mem_dedup, mem_sortStr]

/-- C3: a case of the log is absent from the returned case-state mapping
exactly when some gateway in its computed enabled-gateways list is a model
end-event; otherwise its record is present. -/
theorem end_event_exclusion (S : Services) (w : World) (case_id : String)
    (hin : case_id ∈ w.log.map (fun e => e.case)) :
    ((caseGatewaysPure S w.model w.graph
        (w.log.filter (fun e => e.case == case_id))).any
      (fun gw => is_end_event w.model gw.id) = true) ↔
    case_id ∉ (compute_case_states S w).1.map Prod.fst := by
  unfold compute_case_states
  rw [ccs_fold_ids S w (caseIdsOf w.log) [] w rfl rfl]
  simp only [List.map_nil, List.nil_append]
  rw [List.mem_filter]
  constructor
  · intro hdrop hc
    have : (!(caseDropped S w.model w.graph
        (w.log.filter (fun e => e.case == case_id)))) = true := hc.2
    rw [show caseDropped S w.model w.graph
      (w.log.filter (fun e => e.case == case_id)) = true from hdrop] at this
    cases this
  · intro habs
    by_contra hnd
    refine habs ⟨(mem_caseIdsOf case_id w.log).mpr hin, ?_⟩
    have : caseDropped S w.model w.graph
        (w.log.filter (fun e => e.case == case_id)) = false := by
      cases hvl : caseDropped S w.model w.graph
        (w.log.filter (fun e => e.case == case_id)) with
      | false => rfl
      | true => exact absurd hvl hnd
    rw [this]
    rfl

/-- Model for the end-event exclusion witness: task `A` (named `a`) feeds
end-event `E` through flow `f1`. -/
def modelW3 : BPMNModel :=
  { sequence_flows := [("f1", "E")], flow_sources := [("f1", "A")],
    activities := [("A", "a")], task_name_to_id := [("a", "A")],
    end_events := ["E"] }

def servicesW3 : Services :=
  { matcher := fun _ => ["f1"], enabled_since := fun _ _ _ => none }

/-- One case whose only event (task `A`) already finished: the end event
becomes an enabled gateway and the case is dropped. -/
def worldW3 : World :=
  { model := modelW3, graph := rgEmpty,
    log := [{ case := "c", activity := "a", resource := "r",
              start_time := some 1, end_time := some 10, enabled_time := none }],
    concurrency := [] }

theorem end_event_exclusion_witness :
    ((caseGatewaysPure servicesW3 worldW3.model worldW3.graph
        (worldW3.log.filter (fun e => e.case == "c"))).any
      (fun gw => is_end_event worldW3.model gw.id) = true) ↔
    "c" ∉ (compute_case_states servicesW3 worldW3).1.map Prod.fst :=
  end_event_exclusion servicesW3 worldW3 "c" (by decide)

theorem dlookup_cons {κ α : Type} [BEq κ] (a : κ) (b : α) (rest : List (κ × α))
    (k : κ) :
    dlookup ((a, b) :: rest) k = if a == k then some b else dlookup rest k := by
  by_cases h : (a == k) = true
  · simp [dlookup, List.find?_cons, h]
  · simp only [Bool.not_eq_true] at h
    simp [dlookup, List.find?_cons, h]

theorem dlookup_dinsert {κ α : Type} [BEq κ] [LawfulBEq κ]
    (m : List (κ × α)) (k k' : κ) (v : α) :
    dlookup (dinsert m k v) k' = if k == k' then some v else dlookup m k' := by
  induction m with
  | nil =>
    simp only [dinsert]
    rw [dlookup_cons]
  | cons p rest ih =>
    obtain ⟨k1, v1⟩ := p
    by_cases h1 : (k1 == k) = true
    · have hk1 : k1 = k := eq_of_beq h1
      subst hk1
      simp only [dinsert, if_pos h1]
      rw [dlookup_cons, dlookup_cons]
      by_cases h2 : (k1 == k') = true
      · simp [h2]
      · simp [h2]
    · simp only [Bool.not_eq_true] at h1
      simp only [dinsert, h1, Bool.false_eq_true, if_false]
      rw [dlookup_cons, dlookup_cons, ih]
      by_cases h2 : (k1 == k') = true
      · have hk' : k1 = k' := eq_of_beq h2
        subst hk'
        have hne : k1 ≠ k := beq_eq_false_iff_ne.mp h1
        have hkk : (k == k1) = false :=
          beq_eq_false_iff_ne.mpr (fun h => hne h.symm)
        simp [h2, hkk]
      · simp only [Bool.not_eq_true] at h2
        simp [h2]

/-- The oracle-table evolution contract: every present entry is preserved
verbatim, and any new entry is the empty structure inserted by the lazy
registration step. -/
def tableExt (t t' : OracleTable) : Prop :=
  (∀ k v, dlookup t k = some v → dlookup t' k = some v) ∧
  (∀ k, dlookup t k = none → (dlookup t' k = none ∨ dlookup t' k = some []))

theorem tableExt_refl (t : OracleTable) : tableExt t t :=
  ⟨fun _ _ h => h, fun _ h => Or.inl h⟩

theorem tableExt_trans {t1 t2 t3 : OracleTable}
    (h12 : tableExt t1 t2) (h23 : tableExt t2 t3) : tableExt t1 t3 := by
  refine ⟨fun k v h => h23.1 k v (h12.1 k v h), fun k h => ?_⟩
  rcases h12.2 k h with h2 | h2
  · exact h23.2 k h2
  · exact Or.inr (h23.1 k [] h2)

theorem tableExt_dinsert (t : OracleTable) (name : String)
    (h : dlookup t name = none) : tableExt t (dinsert t name []) := by
  constructor
  · intro k v hk
    rw [dlookup_dinsert]
    by_cases he : (name == k) = true
    · have : name = k := eq_of_beq he
      subst this
      rw [h] at hk
      cases hk
    · simp only [Bool.not_eq_true] at he
      rw [he]
      simpa using hk
  · intro k hk
    rw [dlookup_dinsert]
    by_cases he : (name == k) = true
    · rw [if_pos he]
      exact Or.inr rfl
    · simp only [Bool.not_eq_true] at he
      rw [he]
      simp only [Bool.false_eq_true, if_false]
      exact Or.inl hk

/-- The enabled-activities loop only extends the oracle table by the lazy
registration of missing activity names, each inserted empty. -/
theorem enabledActivitiesOf_tableExt (S : Services) (m : BPMNModel)
    (group finished : List Event) :
    ∀ (flows : List String) (acc : List EnabledRec × OracleTable),
      tableExt acc.2 ((flows.foldl (fun (acc : List EnabledRec × OracleTable) flow_id =>
        match dlookup m.sequence_flows flow_id with
        | none => acc
        | some target =>
          match dlookup m.activities target with
          | none => acc
          | some name =>
            if finished.length == 0 then
              (acc.1 ++ [{ id := target,
                           enabled_time := listMin (group.filterMap (fun e => e.start_time)) }],
               acc.2)
            else
              let t' := if (dlookup acc.2 name).isSome then acc.2 else dinsert acc.2 name []
              let probe := (listMax (finished.filterMap (fun e => e.end_time))).getD 0 + 1
              (acc.1 ++ [{ id := target, enabled_time := S.enabled_since finished name probe }],
               t')) acc).2) := by
  intro flows
  induction flows with
  | nil => exact fun acc => tableExt_refl acc.2
  | cons flow_id rest ih =>
    intro acc
    simp only [List.foldl_cons]
    refine tableExt_trans ?_ (ih _)
    cases hlk : dlookup m.sequence_flows flow_id with
    | none =>
      simp only [hlk]
      exact tableExt_refl acc.2
    | some target =>
      simp only [hlk]
      cases hname : dlookup m.activities target with
      | none => exact tableExt_refl acc.2
      | some name =>
        by_cases hfin : (finished.length == 0) = true
        · simp only [hfin, if_true]
          exact tableExt_refl acc.2
        · simp only [hfin, Bool.false_eq_true, if_false]
          by_cases hl : (dlookup acc.2 name).isSome = true
          · simp only [hl, if_true]
            exact tableExt_refl acc.2
          · simp only [hl, Bool.false_eq_true, if_false]
            exact tableExt_dinsert acc.2 name
              (Option.not_isSome_iff_eq_none.mp (by simp [hl]))

theorem computeCaseState_tableExt (S : Services) (w : World) (group : List Event) :
    tableExt w.concurrency (computeCaseState S w group).2.concurrency := by
  have hfold := enabledActivitiesOf_tableExt S w.model (sortByStart group)
    (caseFinishedOf group) (caseFlowsOf S w group) ([], w.concurrency)
  unfold computeCaseState
  dsimp only
  split
  · exact hfold
  · exact hfold

/-- C9: a full run of `compute_case_states` leaves the model tables, the
reachability graph and the event log untouched; the only mutation is to the
oracle's concurrency table, and that only by lazy insertion of empty
entries — every pre-existing entry survives verbatim. -/
theorem compute_case_states_frame (S : Services) (w : World) :
    (compute_case_states S w).2.model = w.model ∧
    (compute_case_states S w).2.graph = w.graph ∧
    (compute_case_states S w).2.log = w.log ∧
    tableExt w.concurrency (compute_case_states S w).2.concurrency := by
  unfold compute_case_states
  suffices hgen : ∀ (cids : List String) (acc : List (String × CaseState) × World),
      (cids.foldl (ccsStep S w.log) acc).2.model = acc.2.model ∧
      (cids.foldl (ccsStep S w.log) acc).2.graph = acc.2.graph ∧
      (cids.foldl (ccsStep S w.log) acc).2.log = acc.2.log ∧
      tableExt acc.2.concurrency (cids.foldl (ccsStep S w.log) acc).2.concurrency by
    exact hgen (caseIdsOf w.log) ([], w)
  intro cids
  induction cids with
  | nil => exact fun acc => ⟨rfl, rfl, rfl, tableExt_refl _⟩
  | cons cid rest ih =>
    intro acc
    simp only [List.foldl_cons]
    obtain ⟨t, ht⟩ := computeCaseState_world S acc.2
      (w.log.filter (fun e => e.case == cid))
    have hext := computeCaseState_tableExt S acc.2
      (w.log.filter (fun e => e.case == cid))
    have hstep : (ccsStep S w.log acc cid).2 =
        (computeCaseState S acc.2 (w.log.filter (fun e => e.case == cid))).2 := by
      unfold ccsStep
      cases hres : computeCaseState S acc.2 (w.log.filter (fun e => e.case == cid)) with
      | mk o w1 => cases o <;> rfl
    obtain ⟨ihm, ihg, ihl, ihext⟩ := ih (ccsStep S w.log acc cid)
    refine ⟨?_, ?_, ?_, ?_⟩
    · rw [ihm, hstep, ht]
    · rw [ihg, hstep, ht]
    · rw [ihl, hstep, ht]
    · refine tableExt_trans ?_ ihext
      rw [hstep]
      exact hext

theorem ongoingOf_unresolved_mem (m : BPMNModel) (tbl : OracleTable)
    (group : List Event) (e : Event) (he : e ∈ group)
    (hend : e.end_time = none)
    (hres : dlookup m.task_name_to_id e.activity = none) :
    ({ id := none, start_time := e.start_time, resource := e.resource,
       enabled_time := none } : OngoingRecord) ∈ ongoingOf m tbl group := by
  unfold ongoingOf
  refine List.mem_map.mpr ⟨e, List.mem_filter.mpr ⟨he, by simp [hend]⟩, ?_⟩
  simp only [hres]
  cases hst : e.start_time <;> rfl

theorem contains_some_filter (ids : List (Option String)) (t : String) :
    (ids.filter (fun i => i.isSome)).contains (some t) = ids.contains (some t) := by
  by_cases h : some t ∈ ids
  · have h1 : (ids.filter (fun i => i.isSome)).contains (some t) = true :=
      List.elem_eq_true_of_mem (List.mem_filter.mpr ⟨h, rfl⟩)
    have h2 : ids.contains (some t) = true := List.elem_eq_true_of_mem h
    rw [h1, h2]
  · have h2 : some t ∉ ids.filter (fun i => i.isSome) :=
      fun hc => h (List.mem_filter.mp hc).1
    cases hc1 : (ids.filter (fun i => i.isSome)).contains (some t) with
    | true => exact absurd (List.mem_of_elem_eq_true hc1) h2
    | false =>
      cases hc2 : ids.contains (some t) with
      | true => exact absurd (List.mem_of_elem_eq_true hc2) h
      | false => rfl

/-- On a graph whose incoming edges are all labeled, a `none` activity id
matches no edge, so the correction fold is blind to unresolved entries. -/
theorem intersectOngoing_skip_none (g : ReachabilityGraph)
    (hlab : ∀ p ∈ g.incoming_edges, ∀ eid ∈ p.2,
      (dlookup g.edge_to_activity eid).isSome = true)
    (ids : List (Option String)) (marking : List String) :
    intersectOngoing g ids marking =
      intersectOngoing g (ids.filter (fun i => i.isSome)) marking := by
  unfold intersectOngoing
  cases hmk : dlookup g.marking_to_key (canonKey marking) with
  | none => rfl
  | some mid =>
    dsimp only
    have hinc : ∀ eid ∈ (dlookup g.incoming_edges mid).getD [],
        (dlookup g.edge_to_activity eid).isSome = true := by
      cases hlk : dlookup g.incoming_edges mid with
      | none => intro eid h; cases h
      | some l =>
        intro eid h
        obtain ⟨q, hq, _, hsnd⟩ := dlookup_mem hlk
        exact hlab q hq eid (by rw [hsnd]; simpa using h)
    generalize (dlookup g.incoming_edges mid).getD [] = inc at hinc
    suffices hgen : ∀ (l : List (Option String)) (fl : List String),
        l.foldl (fun fl tid =>
          match inc.find? (fun eid => dlookup g.edge_to_activity eid == tid) with
          | none => fl
          | some eid => sinter fl ((dlookup g.markings
              (((dlookup g.edges eid).getD (0, 0)).1)).getD [])) fl =
        (l.filter (fun i => i.isSome)).foldl (fun fl tid =>
          match inc.find? (fun eid => dlookup g.edge_to_activity eid == tid) with
          | none => fl
          | some eid => sinter fl ((dlookup g.markings
              (((dlookup g.edges eid).getD (0, 0)).1)).getD [])) fl by
      exact hgen ids marking
    intro l
    induction l with
    | nil => intro fl; rfl
    | cons tid rest ih =>
      intro fl
      cases tid with
      | none =>
        have hfind : inc.find? (fun eid =>
            dlookup g.edge_to_activity eid == (none : Option String)) = none := by
          rw [List.find?_eq_none]
          intro eid heid
          obtain ⟨x, hx⟩ := Option.isSome_iff_exists.mp (hinc eid heid)
          rw [hx]
          simp
        simp only [List.foldl_cons, List.filter_cons, hfind]
        exact ih fl
      | some a =>
        simp only [List.foldl_cons, List.filter_cons]
        exact ih _

/-- The gateway-suppression test is blind to unresolved (null) ongoing ids:
upstream tasks are always genuine activity ids. -/
theorem enabledGatewaysOf_skip_none (m : BPMNModel) (flows : List String)
    (ids : List (Option String)) (fin : List Event) :
    enabledGatewaysOf m flows ids fin =
      enabledGatewaysOf m flows (ids.filter (fun i => i.isSome)) fin := by
  have hfun : (fun t => (ids.filter (fun i => i.isSome)).contains (some t)) =
      (fun t => ids.contains (some t)) :=
    funext (fun t => contains_some_filter ids t)
  unfold enabledGatewaysOf
  simp only [hfun]

/-- C6: an ongoing event whose activity name does not resolve to a model
activity breaks nothing — the reconstruction is total. The event still
yields an `ongoing_activities` record with a null activity id (and a null
enabled time), and null ids are inert in both the marking-intersection step
(no labeled incoming edge can match `none`) and the gateway upstream-task
suppression test (upstream ids are genuine activity ids): each computes the
same result as with the unresolved entries removed. -/
theorem unresolved_ongoing_harmless (m : BPMNModel) (tbl : OracleTable)
    (g : ReachabilityGraph) (group : List Event) (marking : List String)
    (flows : List String) (fin : List Event) (e : Event)
    (he : e ∈ group) (hend : e.end_time = none)
    (hres : dlookup m.task_name_to_id e.activity = none)
    (hlab : ∀ p ∈ g.incoming_edges, ∀ eid ∈ p.2,
      (dlookup g.edge_to_activity eid).isSome = true) :
    ({ id := none, start_time := e.start_time, resource := e.resource,
       enabled_time := none } : OngoingRecord) ∈ ongoingOf m tbl group ∧
    intersectOngoing g ((ongoingOf m tbl group).map (fun a => a.id)) marking =
      intersectOngoing g (((ongoingOf m tbl group).map (fun a => a.id)).filter
        (fun i => i.isSome)) marking ∧
    enabledGatewaysOf m flows ((ongoingOf m tbl group).map (fun a => a.id)) fin =
      enabledGatewaysOf m flows (((ongoingOf m tbl group).map (fun a => a.id)).filter
        (fun i => i.isSome)) fin :=
  ⟨ongoingOf_unresolved_mem m tbl group e he hend hres,
   intersectOngoing_skip_none g hlab _ marking,
   enabledGatewaysOf_skip_none m flows _ fin⟩

/-- An event whose activity name `X` is absent from `modelW5`. -/
def eventW6 : Event :=
  { case := "c", activity := "X", resource := "r",
    start_time := some 5, end_time := none, enabled_time := none }

theorem unresolved_ongoing_harmless_witness :
    ({ id := none, start_time := some 5, resource := "r",
       enabled_time := none } : OngoingRecord) ∈ ongoingOf modelW5 [] [eventW6] ∧
    intersectOngoing rgEmpty ((ongoingOf modelW5 [] [eventW6]).map (fun a => a.id))
        ["f1"] =
      intersectOngoing rgEmpty (((ongoingOf modelW5 [] [eventW6]).map
        (fun a => a.id)).filter (fun i => i.isSome)) ["f1"] ∧
    enabledGatewaysOf modelW5 [] ((ongoingOf modelW5 [] [eventW6]).map
        (fun a => a.id)) [] =
      enabledGatewaysOf modelW5 [] (((ongoingOf modelW5 [] [eventW6]).map
        (fun a => a.id)).filter (fun i => i.isSome)) [] :=
  unresolved_ongoing_harmless modelW5 [] rgEmpty [eventW6] ["f1"] [] [] eventW6
    (List.mem_singleton.mpr rfl) rfl (by decide)
    (by intro p hp; cases hp)

/-- Every record of the enabled-gateways list originates from a working
flow whose target it is, passed the suppression test, and carried a defined
enabled time. -/
theorem enabledGatewaysOf_mem_src (m : BPMNModel)
    (ongoing_ids : List (Option String)) (finished : List Event) :
    ∀ (flows : List String) (acc : List GatewayRec),
      ∀ r ∈ flows.foldl (fun acc flow_id =>
        match dlookup m.sequence_flows flow_id with
        | none => acc
        | some gw_id =>
          if gw_id != "" && (dlookup m.activities gw_id).isNone then
            let tasks_upstream := get_upstream_tasks_through_gateways m gw_id
            if tasks_upstream.any (fun t => ongoing_ids.contains (some t)) then acc
            else
              match compute_gateway_enabled_time m gw_id finished with
              | none => acc
              | some v => acc ++ [{ id := gw_id, enabled_time := v }]
          else acc) acc,
      r ∈ acc ∨ ∃ flow ∈ flows, dlookup m.sequence_flows flow = some r.id ∧
        (get_upstream_tasks_through_gateways m r.id).any
          (fun t => ongoing_ids.contains (some t)) = false ∧
        compute_gateway_enabled_time m r.id finished = some r.enabled_time := by
  intro flows
  induction flows with
  | nil => intro acc r hr; exact Or.inl hr
  | cons flow_id rest ih =>
    intro acc r hr
    simp only [List.foldl_cons] at hr
    rcases ih _ r hr with hin | ⟨flow, hflow, hsrc⟩
    · cases hlk : dlookup m.sequence_flows flow_id with
      | none =>
        simp only [hlk] at hin
        exact Or.inl hin
      | some gw_id =>
        simp only [hlk] at hin
        split at hin
        · split at hin
          · exact Or.inl hin
          · next hany =>
            split at hin
            · exact Or.inl hin
            · next v hti =>
              rcases List.mem_append.mp hin with hin | hin
              · exact Or.inl hin
              · rcases List.mem_singleton.mp hin with rfl
                refine Or.inr ⟨flow_id, List.mem_cons_self _ _, hlk, ?_, hti⟩
                simpa using hany
        · exact Or.inl hin
    · exact Or.inr ⟨flow, List.mem_cons_of_mem _ hflow, hsrc⟩

/-- C10: the end-event exclusion inspects only the gateways that actually
made it into `enabled_gateways`. If every working flow that targets a model
end-event is either suppressed by an ongoing upstream task or has an
undefined enabled time, no end-event record exists, and the case is emitted
in the result mapping rather than dropped. -/
theorem suppressed_end_event_not_dropped (S : Services) (w : World)
    (case_id : String) (hin : case_id ∈ w.log.map (fun e => e.case))
    (h : ∀ flow ∈ caseFlowsPure S w.model w.graph
        (w.log.filter (fun e => e.case == case_id)),
      ∀ gw, dlookup w.model.sequence_flows flow = some gw →
        gw ∈ w.model.end_events →
        ((get_upstream_tasks_through_gateways w.model gw).any (fun t =>
          (ongoingIdsOf w.model (w.log.filter (fun e => e.case == case_id))).contains
            (some t)) = true ∨
         compute_gateway_enabled_time w.model gw
           (caseFinishedOf (w.log.filter (fun e => e.case == case_id))) = none)) :
    case_id ∈ (compute_case_states S w).1.map Prod.fst := by
  unfold compute_case_states
  rw [ccs_fold_ids S w (caseIdsOf w.log) [] w rfl rfl]
  simp only [List.map_nil, List.nil_append]
  refine List.mem_filter.mpr ⟨(mem_caseIdsOf case_id w.log).mpr hin, ?_⟩
  suffices hnd : caseDropped S w.model w.graph
      (w.log.filter (fun e => e.case == case_id)) = false by
    rw [hnd]
    rfl
  by_contra hc
  simp only [Bool.not_eq_false] at hc
  unfold caseDropped at hc
  obtain ⟨rec, hrec, hend⟩ := List.any_eq_true.mp hc
  unfold caseGatewaysPure at hrec
  rcases enabledGatewaysOf_mem_src w.model
    (ongoingIdsOf w.model (w.log.filter (fun e => e.case == case_id)))
    (caseFinishedOf (w.log.filter (fun e => e.case == case_id)))
    (caseFlowsPure S w.model w.graph (w.log.filter (fun e => e.case == case_id)))
    [] rec hrec with hnil | ⟨flow, hflow, hlk, hany, hti⟩
  · cases hnil
  · rcases h flow hflow rec.id hlk (List.mem_of_elem_eq_true hend) with hsup | hodd
    · rw [hany] at hsup
      cases hsup
    · rw [hti] at hodd
      cases hodd

theorem modelW3_upstream : get_upstream_tasks_through_gateways modelW3 "E" = ["A"] := by
  simp +decide [get_upstream_tasks_through_gateways, upLoop, expandPreds, dlookup,
    flowSourceOf, modelW3]

/-- One case of `modelW3` whose only event is still running: the end event
`E` is reachable but suppressed by its ongoing upstream task. -/
def worldW10 : World :=
  { model := modelW3, graph := rgEmpty,
    log := [{ case := "c", activity := "a", resource := "r",
              start_time := some 1, end_time := none, enabled_time := none }],
    concurrency := [] }

theorem suppressed_end_event_not_dropped_witness :
    "c" ∈ (compute_case_states servicesW4 worldW10).1.map Prod.fst := by
  refine suppressed_end_event_not_dropped servicesW4 worldW10 "c" (by decide) ?_
  intro flow hflow gw hgw hge
  left
  have hfl : caseFlowsPure servicesW4 worldW10.model worldW10.graph
      (worldW10.log.filter (fun e => e.case == "c")) = ["f1"] := rfl
  rw [hfl] at hflow
  rcases List.mem_singleton.mp hflow with rfl
  have hgwE : gw = "E" := by
    rw [show dlookup worldW10.model.sequence_flows "f1" = some "E" from rfl] at hgw
    exact (Option.some_injective _ hgw.symm)
  subst hgwE
  rw [show (worldW10.model : BPMNModel) = modelW3 from rfl, modelW3_upstream]
  decide

theorem mem_insEv (x y : Event) (l : List Event) :
    y ∈ insEv x l ↔ y = x ∨ y ∈ l := by
  induction l with
  | nil => simp [insEv]
  | cons z zs ih =>
    by_cases h : startLtB z x = true
    · simp only [insEv, if_pos h, List.mem_cons, ih]
      tauto
    · simp only [insEv, if_neg h, List.mem_cons]

theorem mem_sortByStart (y : Event) (l : List Event) :
    y ∈ sortByStart l ↔ y ∈ l := by
  induction l with
  | nil => simp [sortByStart]
  | cons x xs ih =>
    simp only [sortByStart, mem_insEv, List.mem_cons, ih]

theorem mem_ongoingIdsOf (m : BPMNModel) (group : List Event) (x : Option String) :
    x ∈ ongoingIdsOf m group ↔
      ∃ e ∈ group, e.end_time = none ∧ dlookup m.task_name_to_id e.activity = x := by
  unfold ongoingIdsOf
  rw [List.mem_map]
  constructor
  · rintro ⟨e, hef, rfl⟩
    have hm := List.mem_filter.mp hef
    refine ⟨e, (mem_sortByStart e group).mp hm.1, ?_, rfl⟩
    exact Option.isNone_iff_eq_none.mp (by simpa using hm.2)
  · rintro ⟨e, he, hend, rfl⟩
    exact ⟨e, List.mem_filter.mpr
      ⟨(mem_sortByStart e group).mpr he, by simp [hend]⟩, rfl⟩

/-- C2 (amended): `control_flow_state.activities` equals, as a set, the
list of `task_name_to_id` lookup results of the case's ongoing events —
the resolved ids plus a null entry for each unresolved ongoing event. -/
theorem activities_eq_ongoing_lookups (S : Services) (w : World)
    (case_id : String) (cs : CaseState)
    (h : (case_id, cs) ∈ (compute_case_states S w).1) :
    ∀ x, x ∈ cs.control_flow_state.activities ↔
      ∃ e ∈ w.log.filter (fun e => e.case == case_id), e.end_time = none ∧
        dlookup w.model.task_name_to_id e.activity = x := by
  unfold compute_case_states at h
  rcases ccs_fold_mem S w.log (caseIdsOf w.log) ([], w) case_id cs h with
    hin | ⟨w', hm, hg, hl, hc⟩
  · cases hin
  · dsimp only at hm hg hl
    obtain ⟨_, hact, _, _⟩ := computeCaseState_fst_some S w' _ cs hc
    intro x
    rw [hact, caseOngoingOf_map_id, hm, mem_ongoingIdsOf]

/-- Services that find no marking and never answer enablement queries. -/
def servicesC2 : Services :=
  { matcher := fun _ => [], enabled_since := fun _ _ _ => none }

/-- A world whose only event is ongoing with the unresolvable name `X`. -/
def worldC2 : World :=
  { model := modelW5, graph := rgEmpty, log := [eventW6], concurrency := [] }

/-- The record emitted for case `c` of `worldC2`. -/
def caseStateC2 : CaseState :=
  { control_flow_state := { flows := [], activities := [none] },
    ongoing_activities := [{ id := none, start_time := some 5,
                             resource := "r", enabled_time := none }],
    enabled_activities := [], enabled_gateways := [] }

/-- C2 as stated is false: with a single ongoing event whose activity name
resolves to no model activity, the set of resolved ongoing-activity ids is
empty, yet the emitted `control_flow_state.activities` contains a null
entry — the unresolved event does contribute to the set. -/
theorem activities_unresolved_counterexample :
    (compute_case_states servicesC2 worldC2).1 = [("c", caseStateC2)] ∧
    none ∈ caseStateC2.control_flow_state.activities ∧
    (∀ e ∈ worldC2.log, dlookup worldC2.model.task_name_to_id e.activity = none) :=
  ⟨rfl, List.mem_singleton.mpr rfl, by decide⟩

theorem activities_eq_ongoing_lookups_witness :
    (none ∈ caseStateC2.control_flow_state.activities ↔
      ∃ e ∈ worldC2.log.filter (fun e => e.case == "c"), e.end_time = none ∧
        dlookup worldC2.model.task_name_to_id e.activity = none) :=
  activities_eq_ongoing_lookups servicesC2 worldC2 "c" caseStateC2
    (List.mem_singleton.mpr rfl) none
